import Mathlib

/-!
Verification of the TechHive automation service (src/unnamed/part_000).
JavaScript strings are modelled as lists of Unicode code points (`List Nat`);
`strCodes` converts a Lean string literal into that representation.
-/

namespace TechHive

/-- A JS string, as its list of code points. -/
def strCodes (s : String) : List Nat := s.data.map Char.toNat

/-- The character class matched by the JS regex `\s` (also the class removed
by `String.prototype.trim`). -/
def isWsC (c : Nat) : Bool :=
  decide (c = 32 ∨ c = 9 ∨ c = 10 ∨ c = 11 ∨ c = 12 ∨ c = 13 ∨
    c = 160 ∨ c = 5760 ∨ (8192 ≤ c ∧ c ≤ 8202) ∨
    c = 8232 ∨ c = 8233 ∨ c = 8239 ∨ c = 8287 ∨ c = 12288 ∨ c = 65279)

/-- Simple (single-code-point) case mapping of `String.prototype.toUpperCase`,
exact on ASCII; the full mapping, under which a code point may uppercase to
several, is `upperChars`. -/
def toUpperCode (c : Nat) : Nat := if 97 ≤ c ∧ c ≤ 122 then c - 32 else c

/-- Simple (single-code-point) case mapping of `String.prototype.toLowerCase`,
exact on ASCII. -/
def toLowerCode (c : Nat) : Nat := if 65 ≤ c ∧ c ≤ 90 then c + 32 else c

/-- Unicode full uppercase mapping of one code point, as used by
`String.prototype.toUpperCase`: ASCII letters shift, and the sharp s 223
(`ß`) expands to the two code points `SS`. Code points whose mapping is not
exercised by the theorems of this file are kept unchanged. -/
def upperChars (c : Nat) : List Nat :=
  if 97 ≤ c ∧ c ≤ 122 then [c - 32]
  else if c = 223 then [83, 83]
  else [c]

/-- Unicode full lowercase mapping of one code point, as used by
`String.prototype.toLowerCase`; on the code points of this file it is the
simple mapping. -/
def lowerChars (c : Nat) : List Nat :=
  if 65 ≤ c ∧ c ≤ 90 then [c + 32] else [c]

/-- `String.prototype.toUpperCase` with full case mappings. -/
def toUpperFull : List Nat → List Nat
  | [] => []
  | c :: cs => upperChars c ++ toUpperFull cs

/-- `String.prototype.toLowerCase` with full case mappings. -/
def toLowerFull : List Nat → List Nat
  | [] => []
  | c :: cs => lowerChars c ++ toLowerFull cs

/-- `s.replace(/\s+/g, ' ')`: every maximal run of whitespace becomes a
single space (code 32). -/
def collapseWs : List Nat → List Nat
  | [] => []
  | c :: cs =>
    if isWsC c then
      let r := collapseWs cs
      if r.head? == some 32 then r else 32 :: r
    else c :: collapseWs cs

/-- Leading-whitespace removal (first half of `trim`). -/
def trimStart (l : List Nat) : List Nat := l.dropWhile (fun c => isWsC c)

/-- Trailing-whitespace removal (second half of `trim`). -/
def trimEnd : List Nat → List Nat
  | [] => []
  | c :: cs =>
    match trimEnd cs with
    | [] => if isWsC c then [] else [c]
    | r => c :: r

/-- `String.prototype.trim`. -/
def trimWs (l : List Nat) : List Nat := trimEnd (trimStart l)

/-- `s.split(sep)` for a one-character separator: JS yields the (possibly
empty) pieces between occurrences of the separator, so the empty string
splits to one empty piece. -/
def splitOnC (sep : Nat) : List Nat → List (List Nat)
  | [] => [[]]
  | c :: cs =>
    if c == sep then [] :: splitOnC sep cs
    else
      match splitOnC sep cs with
      | [] => [[c]]
      | t :: ts => (c :: t) :: ts

/-- `arr.join(sep)`. -/
def joinWith (sep : List Nat) : List (List Nat) → List Nat
  | [] => []
  | [w] => w
  | w :: v :: ws => w ++ sep ++ joinWith sep (v :: ws)

/-- `word.charAt(0).toUpperCase() + word.slice(1).toLowerCase()`. -/
def capWord : List Nat → List Nat
  | [] => []
  | c :: cs => toUpperCode c :: cs.map toLowerCode

/-- `word.charAt(0).toUpperCase() + word.slice(1).toLowerCase()` with full
case mappings. -/
def capWordFull (w : List Nat) : List Nat :=
  toUpperFull (w.take 1) ++ toLowerFull (w.drop 1)

/-- The title transformation of `optimizeTitles` (part_000 lines 119-124):
collapse whitespace runs, trim, split on single spaces, title-case each
word, re-join with single spaces. Case mapping at the simple per-code-point
level; `optimizeTitleFull` is the same transformation with full case
mappings and agrees with this one on ASCII titles. -/
def optimizeTitle (t : List Nat) : List Nat :=
  joinWith [32] ((splitOnC 32 (trimWs (collapseWs t))).map capWord)

/-- The title transformation of `optimizeTitles` (part_000 lines 119-124)
with Unicode full case mappings. -/
def optimizeTitleFull (t : List Nat) : List Nat :=
  joinWith [32] ((splitOnC 32 (trimWs (collapseWs t))).map capWordFull)

example : optimizeTitle (strCodes "  wireLESS   mouse ") = strCodes "Wireless Mouse" := by decide

/-- A product variant; `inventory_quantity` may be absent. -/
structure Variant where
  inventory_quantity : Option Int
deriving DecidableEq

/-- The product fields this service consumes. `body_html` may be absent. -/
structure Product where
  id : Nat
  title : List Nat
  tags : List Nat
  body_html : Option (List Nat)
  product_type : List Nat
  vendor : List Nat
  variants : List Variant
deriving DecidableEq

/-- Truthiness of an optional JS string (absent and empty are falsy). -/
def truthyStr : Option (List Nat) → Bool
  | none => false
  | some s => !s.isEmpty

/-- `!!(SHOPIFY_STORE && SHOPIFY_ACCESS_TOKEN)`. -/
def shopifyConfigured (store token : Option (List Nat)) : Bool :=
  truthyStr store && truthyStr token

/-- `pre` is a prefix of `l` (JS `String.prototype.startsWith`). -/
def startsWithCodes : List Nat → List Nat → Bool
  | [], _ => true
  | _ :: _, [] => false
  | a :: pre, b :: l => a == b && startsWithCodes pre l

/-- `product.variants.reduce((sum, v) => sum + (v.inventory_quantity || 0), 0)`
(part_000 line 151). -/
def totalInventory (vs : List Variant) : Int :=
  vs.foldl (fun sum v => sum + v.inventory_quantity.getD 0) 0

/-- The single stock tag appended by `updateInventoryTags`
(part_000 lines 154-160). -/
def stockTag (total : Int) : List Nat :=
  if total = 0 then strCodes "stock-out"
  else if total < 10 then strCodes "stock-low"
  else strCodes "stock-available"

/-- `product.tags.split(',').map(t => t.trim()).filter(t => !t.startsWith('stock-'))`
(part_000 line 152). -/
def survivingTags (tags : List Nat) : List (List Nat) :=
  ((splitOnC 44 tags).map trimWs).filter (fun t => !startsWithCodes (strCodes "stock-") t)

/-- `newTags.join(', ')` after pushing the stock tag (part_000 lines 152-162). -/
def updatedTags (tags : List Nat) (total : Int) : List Nat :=
  joinWith (strCodes ", ") (survivingTags tags ++ [stockTag total])

/-- Qualification test of `generateSEODescriptions`
(`!product.body_html || product.body_html.length < 50`, part_000 line 188). -/
def qualifiesForSEO : Option (List Nat) → Bool
  | none => true
  | some d => d.isEmpty || decide (d.length < 50)

/-- The generated SEO description template (part_000 line 189): the spaces
between the interpolated fragments are unconditional. -/
def seoDescription (title ptype vendor : List Nat) : List Nat :=
  strCodes "Shop " ++ title ++ strCodes " at TechHive. " ++
  (if ptype.isEmpty then [] else strCodes "Category: " ++ ptype ++ strCodes ".") ++
  [32] ++
  (if vendor.isEmpty then [] else strCodes "Brand: " ++ vendor ++ strCodes ".") ++
  [32] ++ strCodes "Fast shipping and great prices!"

/-- Per-product decision of `optimizeTitles`: the write-back payload, if one
is issued (part_000 lines 118-129). -/
def titleStep (p : Product) : Option (List Nat) :=
  let t := optimizeTitle p.title
  if p.title ≠ t then some t else none

/-- Per-product decision of `updateInventoryTags` (part_000 lines 151-166). -/
def tagsStep (p : Product) : Option (List Nat) :=
  let u := updatedTags p.tags (totalInventory p.variants)
  if p.tags ≠ u then some u else none

/-- Per-product decision of `generateSEODescriptions` (part_000 lines 188-193). -/
def seoStep (p : Product) : Option (List Nat) :=
  if qualifiesForSEO p.body_html then
    some (seoDescription p.title p.product_type p.vendor)
  else none

/-- Outcome of one automation scan over a product list. -/
structure LoopResult where
  writes : List (Nat × List Nat)
  attempts : List Nat
  errored : Bool
deriving DecidableEq

/-- The shared `for (const product of products)` loop of the three automation
routines: the whole loop sits inside one `try`, so the first failed
write-back throws to the outer catch and the remaining products are never
processed. `putOk id` tells whether the remote update for `id` succeeds. -/
def runLoop (step : Product → Option (List Nat)) (putOk : Nat → Bool) :
    List Product → LoopResult
  | [] => ⟨[], [], false⟩
  | p :: ps =>
    match step p with
    | none => runLoop step putOk ps
    | some v =>
      if putOk p.id then
        let r := runLoop step putOk ps
        ⟨(p.id, v) :: r.writes, p.id :: r.attempts, r.errored⟩
      else ⟨[], [p.id], true⟩

/-- A remote Shopify API call issued by a routine or handler. -/
inductive RemoteCall where
  | fetchProducts
  | putProduct (id : Nat)
deriving DecidableEq

/-- Outcome of a full automation routine invocation. -/
structure RoutineResult where
  calls : List RemoteCall
  writes : List (Nat × List Nat)
  errored : Bool
deriving DecidableEq

/-- The shared skeleton of the three automation routines (part_000
lines 109-203): return immediately when unconfigured; otherwise fetch the
product page and run the scan loop, aborting on the first thrown failure. -/
def runRoutine (step : Product → Option (List Nat)) (store token : Option (List Nat))
    (fetch : Except (List Nat) (List Product)) (putOk : Nat → Bool) : RoutineResult :=
  if shopifyConfigured store token then
    match fetch with
    | Except.error _ => ⟨[RemoteCall.fetchProducts], [], true⟩
    | Except.ok products =>
      let r := runLoop step putOk products
      ⟨RemoteCall.fetchProducts :: r.attempts.map RemoteCall.putProduct, r.writes, r.errored⟩
  else ⟨[], [], false⟩

/-- `optimizeTitles` (part_000 lines 109-139). -/
def optimizeTitles : Option (List Nat) → Option (List Nat) →
    Except (List Nat) (List Product) → (Nat → Bool) → RoutineResult :=
  runRoutine titleStep

/-- `updateInventoryTags` (part_000 lines 142-176). -/
def updateInventoryTags : Option (List Nat) → Option (List Nat) →
    Except (List Nat) (List Product) → (Nat → Bool) → RoutineResult :=
  runRoutine tagsStep

/-- `generateSEODescriptions` (part_000 lines 179-203). -/
def generateSEODescriptions : Option (List Nat) → Option (List Nat) →
    Except (List Nat) (List Product) → (Nat → Bool) → RoutineResult :=
  runRoutine seoStep

/-- One activity-log record (part_000 lines 33-38). -/
structure LogEntry where
  timestamp : List Nat
  action : List Nat
  details : List Nat
  status : List Nat
deriving DecidableEq

/-- `logActivity` (part_000 lines 32-42): unshift the entry, then pop the
last entry when the log exceeds 100. -/
def logActivity (e : LogEntry) (logs : List LogEntry) : List LogEntry :=
  let l := e :: logs
  if l.length > 100 then l.dropLast else l

/-- Insert a sequence of entries, oldest first, into the empty log. -/
def runLog (es : List LogEntry) : List LogEntry :=
  es.foldl (fun logs e => logActivity e logs) []

/-- One per-product outcome of `POST /api/bulk-edit` (part_000 lines 93-96). -/
structure BulkEntry where
  id : Nat
  status : List Nat
  error : Option (List Nat)
deriving DecidableEq

/-- Response of `POST /api/bulk-edit` (part_000 line 101). -/
structure BulkResponse where
  results : List BulkEntry
  total : Nat
  successful : Nat
deriving DecidableEq

/-- `POST /api/bulk-edit` (part_000 lines 86-102): each id is attempted in
order inside its own try/catch; `putRes id` is the outcome of the remote
update, carrying the upstream error message on failure. -/
def bulkEdit (putRes : Nat → Except (List Nat) Unit) (ids : List Nat) : BulkResponse :=
  let results := ids.map fun id =>
    match putRes id with
    | Except.ok _ => ⟨id, strCodes "success", none⟩
    | Except.error m => ⟨id, strCodes "error", some m⟩
  ⟨results, ids.length,
    (results.filter (fun r => r.status == strCodes "success")).length⟩

/-- Response of `GET /api/products` (part_000 lines 49-61). -/
structure ProductsResponse where
  statusCode : Nat
  message : Option (List Nat)
  products : List Product
  error : Option (List Nat)
deriving DecidableEq

/-- `GET /api/products` handler (part_000 lines 49-61), together with the
list of remote calls it issues. -/
def getProductsHandler (store token : Option (List Nat))
    (fetch : Except (List Nat) (List Product)) : ProductsResponse × List RemoteCall :=
  if shopifyConfigured store token then
    match fetch with
    | Except.ok ps => (⟨200, none, ps, none⟩, [RemoteCall.fetchProducts])
    | Except.error m => (⟨500, none, [], some m⟩, [RemoteCall.fetchProducts])
  else
    (⟨200, some (strCodes "Shopify not configured. Set SHOPIFY_STORE and SHOPIFY_ACCESS_TOKEN env vars."),
      [], none⟩, [])

/-! ### Helper lemmas -/

theorem updatedTags_nil (tot : Int) :
    updatedTags [] tot = strCodes ", " ++ stockTag tot := by
  have h1 : startsWithCodes (strCodes "stock-") ([] : List Nat) = false := by decide
  simp [updatedTags, survivingTags, splitOnC, trimWs, trimStart, trimEnd, h1, joinWith, strCodes]

/-! ### Claims -/

/-- C10: a product whose tags field is the empty string keeps one empty tag:
splitting `""` on commas yields one empty piece, it survives the `stock-`
filter, so the new tags string is `", "` followed by the stock tag (e.g.
`", stock-out"` at total inventory 0), and a write-back is always issued. -/
theorem empty_tags_always_writes (p : Product) (h : p.tags = []) :
    updatedTags p.tags (totalInventory p.variants) =
      strCodes ", " ++ stockTag (totalInventory p.variants) ∧
    (totalInventory p.variants = 0 → tagsStep p = some (strCodes ", stock-out")) ∧
    (tagsStep p).isSome = true := by
  have hu := updatedTags_nil (totalInventory p.variants)
  have hne : p.tags ≠ updatedTags p.tags (totalInventory p.variants) := by
    rw [h, hu]; intro hc; exact List.cons_ne_nil _ _ hc.symm
  refine ⟨by rw [h, hu], ?_, ?_⟩
  · intro h0
    have : stockTag (totalInventory p.variants) = strCodes "stock-out" := by
      rw [h0]; decide
    simp only [tagsStep, if_pos hne]
    rw [h, hu, this]; decide
  · simp only [tagsStep, if_pos hne, Option.isSome_some]

theorem empty_tags_always_writes_witness :
    tagsStep ⟨5, [], [], none, [], [], []⟩ = some (strCodes ", stock-out") :=
  (empty_tags_always_writes ⟨5, [], [], none, [], [], []⟩ rfl).2.1 rfl

/-- C9: the SEO routine issues a write-back iff the product qualifies
(description absent or shorter than 50 characters); a description of length
at least 50 means no write-back at all, and a qualifying product is written
back unconditionally with the generated description — no equality check. -/
theorem seo_writeback_iff_qualifies (p : Product) :
    ((seoStep p).isSome ↔ qualifiesForSEO p.body_html = true) ∧
    (∀ d, p.body_html = some d → 50 ≤ d.length → seoStep p = none) ∧
    (qualifiesForSEO p.body_html = true →
      seoStep p = some (seoDescription p.title p.product_type p.vendor)) := by
  refine ⟨?_, ?_, ?_⟩
  · by_cases hq : qualifiesForSEO p.body_html <;> simp [seoStep, hq]
  · intro d hd hlen
    have hq : qualifiesForSEO p.body_html = false := by
      rw [hd]
      cases d with
      | nil => simp at hlen
      | cons a as =>
        simp only [qualifiesForSEO, List.isEmpty_cons, Bool.false_or,
          decide_eq_false_iff_not, not_lt]
        simpa using hlen
    simp [seoStep, hq]
  · intro hq; simp [seoStep, hq]

theorem seo_writeback_iff_qualifies_witness :
    seoStep ⟨3, strCodes "X", [], none, [], strCodes "Acme", []⟩ =
      some (seoDescription (strCodes "X") [] (strCodes "Acme")) :=
  (seo_writeback_iff_qualifies ⟨3, strCodes "X", [], none, [], strCodes "Acme", []⟩).2.2 rfl

/-- C1: inventory tagging splits the tags field on commas, trims each piece,
drops every tag starting with `stock-`, appends the single stock tag chosen
by the summed variant inventory (0 → `stock-out`, 1–9 → `stock-low`,
≥10 → `stock-available`), joins with `", "`, and writes back iff the
resulting string differs from the original tags string. -/
theorem inventory_tagging_correct (p : Product) :
    (totalInventory p.variants = 0 →
      stockTag (totalInventory p.variants) = strCodes "stock-out") ∧
    (1 ≤ totalInventory p.variants → totalInventory p.variants ≤ 9 →
      stockTag (totalInventory p.variants) = strCodes "stock-low") ∧
    (10 ≤ totalInventory p.variants →
      stockTag (totalInventory p.variants) = strCodes "stock-available") ∧
    updatedTags p.tags (totalInventory p.variants) =
      joinWith (strCodes ", ")
        (((splitOnC 44 p.tags).map trimWs).filter
            (fun t => !startsWithCodes (strCodes "stock-") t) ++
          [stockTag (totalInventory p.variants)]) ∧
    ((tagsStep p).isSome ↔
      p.tags ≠ updatedTags p.tags (totalInventory p.variants)) := by
  refine ⟨?_, ?_, ?_, rfl, ?_⟩
  · intro h0; rw [stockTag, if_pos h0]
  · intro h1 h9; rw [stockTag, if_neg (by omega), if_pos (by omega)]
  · intro h10; rw [stockTag, if_neg (by omega), if_neg (by omega)]
  · by_cases h : p.tags = updatedTags p.tags (totalInventory p.variants)
    · simp only [tagsStep]
      rw [if_neg (not_not_intro h)]
      exact iff_of_false (by simp) (not_not_intro h)
    · simp only [tagsStep]
      rw [if_pos h]
      exact iff_of_true (by simp) h

theorem inventory_tagging_correct_witness :
    stockTag (totalInventory [⟨some 3⟩, ⟨none⟩]) = strCodes "stock-low" :=
  (inventory_tagging_correct ⟨1, [], [], none, [], [], [⟨some 3⟩, ⟨none⟩]⟩).2.1
    (by decide) (by decide)

/-- C2 counterexample: for the claim's own concrete product (description of
length 49, empty product type, vendor `Acme`) the generated description is
not the single-spaced string the claim asserts — the template's separating
spaces are emitted even when the Category clause is empty. -/
theorem seo_template_counterexample :
    qualifiesForSEO (some (List.replicate 49 97)) = true ∧
    seoStep ⟨7, strCodes "X", [], some (List.replicate 49 97), [], strCodes "Acme", []⟩ ≠
      some (strCodes "Shop X at TechHive. Brand: Acme. Fast shipping and great prices!") := by
  constructor
  · decide
  · decide

/-- C2 amended: the generated description is
`"Shop {title} at TechHive. " + A + " " + B + " " + "Fast shipping and great prices!"`
where `A` is `"Category: {product_type}."` when the product type is non-empty
and empty otherwise, likewise `B` for the vendor; the separating spaces are
unconditional, so with both clauses present the single-spaced template of the
claim is produced, while the claim's concrete product (length-49 description,
empty product type, vendor `Acme`) yields
`"Shop X at TechHive.  Brand: Acme. Fast shipping and great prices!"`
with two spaces before `Brand:`. -/
theorem seo_template_amended (t pt v : List Nat) :
    seoDescription t pt v =
      strCodes "Shop " ++ t ++ strCodes " at TechHive. " ++
        (if pt.isEmpty then [] else strCodes "Category: " ++ pt ++ strCodes ".") ++
        strCodes " " ++
        (if v.isEmpty then [] else strCodes "Brand: " ++ v ++ strCodes ".") ++
        strCodes " " ++ strCodes "Fast shipping and great prices!" ∧
    (pt ≠ [] → v ≠ [] →
      seoDescription t pt v =
        strCodes "Shop " ++ t ++ strCodes " at TechHive. Category: " ++ pt ++
          strCodes ". Brand: " ++ v ++ strCodes ". Fast shipping and great prices!") ∧
    seoStep ⟨7, strCodes "X", [], some (List.replicate 49 97), [], strCodes "Acme", []⟩ =
      some (strCodes "Shop X at TechHive.  Brand: Acme. Fast shipping and great prices!") := by
  refine ⟨rfl, ?_, by decide⟩
  intro hpt hv
  have hpt2 : pt.isEmpty = false := by simp [hpt]
  have hv2 : v.isEmpty = false := by simp [hv]
  simp [seoDescription, hpt2, hv2, strCodes]

theorem seo_template_amended_witness :
    seoDescription (strCodes "T") (strCodes "Gear") (strCodes "Acme") =
      strCodes "Shop " ++ strCodes "T" ++ strCodes " at TechHive. Category: " ++
        strCodes "Gear" ++ strCodes ". Brand: " ++ strCodes "Acme" ++
        strCodes ". Fast shipping and great prices!" :=
  (seo_template_amended (strCodes "T") (strCodes "Gear") (strCodes "Acme")).2.1
    (by decide) (by decide)

theorem logActivity_eq_take (e : LogEntry) (logs : List LogEntry)
    (h : logs.length ≤ 100) : logActivity e logs = (e :: logs).take 100 := by
  simp only [logActivity]
  by_cases hl : (e :: logs).length > 100
  · rw [if_pos hl, List.dropLast_eq_take]
    congr 1
    simp only [List.length_cons] at hl ⊢
    omega
  · rw [if_neg hl]
    exact (List.take_of_length_le (by simp only [List.length_cons] at hl ⊢; omega)).symm

theorem length_logActivity_le (e : LogEntry) (logs : List LogEntry)
    (h : logs.length ≤ 100) : (logActivity e logs).length ≤ 100 := by
  rw [logActivity_eq_take e logs h, List.length_take]
  omega

theorem runLog_general (es : List LogEntry) :
    ∀ logs, logs.length ≤ 100 →
      es.foldl (fun l e => logActivity e l) logs = (es.reverse ++ logs).take 100 := by
  induction es with
  | nil => intro logs h; simpa using (List.take_of_length_le h).symm
  | cons e es ih =>
    intro logs h
    rw [List.foldl_cons, ih _ (length_logActivity_le e logs h),
      logActivity_eq_take e logs h, List.reverse_cons, List.append_assoc,
      List.singleton_append, List.take_append_eq_append_take,
      List.take_append_eq_append_take, List.take_take]
    congr 1
    rw [min_eq_left (Nat.sub_le _ _)]

/-- C5: inserting any sequence of entries into the empty log keeps at most
100 entries, in newest-first order (the log equals the reversed input
truncated to 100); after 101 insertions the first-inserted entry is evicted
and the rest are exactly the remaining 100 in newest-first order. -/
theorem activity_log_bounded (es : List LogEntry) :
    (runLog es).length ≤ 100 ∧
    runLog es = es.reverse.take 100 ∧
    (es.length = 101 → runLog es = (es.drop 1).reverse) := by
  have hmain : runLog es = es.reverse.take 100 := by
    simpa [runLog] using runLog_general es [] (by simp)
  refine ⟨by rw [hmain, List.length_take]; omega, hmain, ?_⟩
  intro h101
  rw [hmain]
  conv_lhs => rw [← List.take_append_drop 1 es]
  rw [List.reverse_append]
  have hlen : (es.drop 1).reverse.length = 100 := by
    simp only [List.length_reverse, List.length_drop, h101]
  rw [← hlen, List.take_left]

theorem activity_log_bounded_witness :
    runLog (List.replicate 101 (⟨[], [], [], []⟩ : LogEntry)) =
      ((List.replicate 101 (⟨[], [], [], []⟩ : LogEntry)).drop 1).reverse :=
  (activity_log_bounded _).2.2 (by simp)

/-- The faulty remote-update outcome used to exercise bulk edit: id 2 fails
with an upstream message, every other id succeeds. -/
def putResW : Nat → Except (List Nat) Unit := fun i =>
  if i = 2 then Except.error (strCodes "Request failed with status code 404")
  else Except.ok ()

theorem putResW_msgs : ∀ i m, putResW i = Except.error m → m ≠ [] := by
  intro i m h
  unfold putResW at h
  split at h
  · injection h with h2
    subst h2
    decide
  · exact Except.noConfusion h

theorem bulkEdit_results_map_id (putRes : Nat → Except (List Nat) Unit) :
    ∀ ids : List Nat, (bulkEdit putRes ids).results.map BulkEntry.id = ids := by
  intro ids
  induction ids with
  | nil => rfl
  | cons i is ih =>
    simp only [bulkEdit, List.map_cons] at ih ⊢
    cases hr : putRes i <;> simp [hr, ih]

theorem bulkEdit_successful_count (putRes : Nat → Except (List Nat) Unit) :
    ∀ ids : List Nat,
      (bulkEdit putRes ids).successful =
        (ids.filter fun i =>
          match putRes i with
          | Except.ok _ => true
          | Except.error _ => false).length := by
  intro ids
  induction ids with
  | nil => rfl
  | cons i is ih =>
    simp only [bulkEdit, List.map_cons, List.filter_cons] at ih ⊢
    cases hr : putRes i <;>
      simp only [hr, List.filter_cons] at ih ⊢ <;>
      simp_all [strCodes]

/-- C6: bulk edit attempts every id in order (the result entries carry the
ids in the request order), one failure does not abort the rest, the result
has one entry per id, `total` is the number of ids, `successful` counts the
ids whose remote update succeeded, and a failing entry carries the upstream
error message, which is non-empty whenever the upstream message is. -/
theorem bulk_edit_isolated (putRes : Nat → Except (List Nat) Unit) (ids : List Nat)
    (hmsg : ∀ i m, putRes i = Except.error m → m ≠ []) :
    (bulkEdit putRes ids).results.length = ids.length ∧
    (bulkEdit putRes ids).total = ids.length ∧
    (bulkEdit putRes ids).results.map BulkEntry.id = ids ∧
    (bulkEdit putRes ids).successful =
      (ids.filter fun i =>
        match putRes i with
        | Except.ok _ => true
        | Except.error _ => false).length ∧
    ∀ r ∈ (bulkEdit putRes ids).results,
      r.status = strCodes "error" → ∃ m, r.error = some m ∧ m ≠ [] := by
  refine ⟨by simp [bulkEdit], rfl, bulkEdit_results_map_id putRes ids,
    bulkEdit_successful_count putRes ids, ?_⟩
  intro r hr hstatus
  simp only [bulkEdit, List.mem_map] at hr
  obtain ⟨i, _, hfi⟩ := hr
  cases hid : putRes i with
  | ok u =>
    rw [hid] at hfi
    have hsucc : r.status = strCodes "success" := by rw [← hfi]
    rw [hstatus] at hsucc
    exact absurd hsucc (by decide)
  | error m =>
    rw [hid] at hfi
    exact ⟨m, by rw [← hfi], hmsg i m hid⟩

theorem bulk_edit_isolated_witness :
    (bulkEdit putResW [1, 2, 3]).results.map BulkEntry.id = [1, 2, 3] ∧
    (bulkEdit putResW [1, 2, 3]).successful = 2 :=
  ⟨(bulk_edit_isolated putResW [1, 2, 3] putResW_msgs).2.2.1,
   ((bulk_edit_isolated putResW [1, 2, 3] putResW_msgs).2.2.2.1).trans (by decide)⟩

/-- C7: when either configuration secret is missing, `GET /api/products`
answers 200 with an empty product list and an explanatory message, issuing
no remote call, and each of the three automation routines returns as a
no-op with no remote call. -/
theorem missing_config_short_circuits (store token : Option (List Nat))
    (h : shopifyConfigured store token = false)
    (fetch : Except (List Nat) (List Product)) (putOk : Nat → Bool) :
    (getProductsHandler store token fetch).1.products = [] ∧
    (getProductsHandler store token fetch).1.message =
      some (strCodes "Shopify not configured. Set SHOPIFY_STORE and SHOPIFY_ACCESS_TOKEN env vars.") ∧
    (getProductsHandler store token fetch).1.statusCode = 200 ∧
    (getProductsHandler store token fetch).1.error = none ∧
    (getProductsHandler store token fetch).2 = [] ∧
    optimizeTitles store token fetch putOk = ⟨[], [], false⟩ ∧
    updateInventoryTags store token fetch putOk = ⟨[], [], false⟩ ∧
    generateSEODescriptions store token fetch putOk = ⟨[], [], false⟩ := by
  simp [getProductsHandler, optimizeTitles, updateInventoryTags,
    generateSEODescriptions, runRoutine, h]

theorem missing_config_short_circuits_witness :
    optimizeTitles none none (Except.ok []) (fun _ => true) = ⟨[], [], false⟩ :=
  (missing_config_short_circuits none none rfl (Except.ok [])
    (fun _ => true)).2.2.2.2.2.1

/-- C4 counterexample: in the title-optimization scan over three products
each needing a write-back, a failing remote update for the second product
aborts the batch — the third product is never attempted (its id appears in
no attempt), even though it needed processing. -/
theorem scan_abort_counterexample :
    titleStep ⟨3, strCodes "third product", [], none, [], [], []⟩ =
      some (strCodes "Third Product") ∧
    runLoop titleStep (fun id => !(id == 2))
      [⟨1, strCodes "first product", [], none, [], [], []⟩,
       ⟨2, strCodes "second product", [], none, [], [], []⟩,
       ⟨3, strCodes "third product", [], none, [], [], []⟩] =
      ⟨[(1, strCodes "First Product")], [1, 2], true⟩ := by
  constructor
  · decide
  · decide

/-- C4 amended: in an automation-scan batch (title optimization, inventory
tagging, SEO generation) a thrown failure while processing one product is
not isolated: the whole loop sits in a single try, so the first failed
write-back ends the scan and none of the remaining products is processed.
(Per-item isolation holds only for the bulk-edit endpoint.) -/
theorem scan_failure_aborts_rest (step : Product → Option (List Nat))
    (putOk : Nat → Bool) (p : Product) (ps : List Product) (v : List Nat)
    (hstep : step p = some v) (hfail : putOk p.id = false) :
    runLoop step putOk (p :: ps) = ⟨[], [p.id], true⟩ := by
  simp [runLoop, hstep, hfail]

theorem scan_failure_aborts_rest_witness :
    runLoop titleStep (fun _ => false)
      [⟨2, strCodes "second product", [], none, [], [], []⟩,
       ⟨3, strCodes "third product", [], none, [], [], []⟩] =
      ⟨[], [2], true⟩ :=
  scan_failure_aborts_rest titleStep (fun _ => false)
    ⟨2, strCodes "second product", [], none, [], [], []⟩
    [⟨3, strCodes "third product", [], none, [], [], []⟩]
    (strCodes "Second Product") (by decide) rfl

/-- C3: title optimization collapses whitespace runs to single spaces,
trims, and title-cases every space-delimited token; the spec's example
`"  wireLESS   mouse "` maps to `"Wireless Mouse"`, and a write-back is
issued iff the optimized title differs from the original. -/
theorem title_optimization_correct :
    optimizeTitle (strCodes "  wireLESS   mouse ") = strCodes "Wireless Mouse" ∧
    ∀ p : Product, ((titleStep p).isSome ↔ optimizeTitle p.title ≠ p.title) := by
  refine ⟨by decide, ?_⟩
  intro p
  by_cases h : p.title = optimizeTitle p.title
  · simp only [titleStep]
    rw [if_neg (not_not_intro h)]
    exact iff_of_false (by simp) fun hc => hc h.symm
  · simp only [titleStep]
    rw [if_pos h]
    exact iff_of_true (by simp) fun hc => h hc.symm

/-! ### Idempotence of title optimization: character-level lemmas -/

theorem isWsC_32 : isWsC 32 = true := by decide

theorem ne_32_of_not_ws {c : Nat} (h : isWsC c = false) : c ≠ 32 := by
  simp only [isWsC, decide_eq_false_iff_not] at h
  omega

theorem toUpperCode_not_ws (c : Nat) (h : isWsC c = false) :
    isWsC (toUpperCode c) = false := by
  unfold toUpperCode
  split_ifs with h1
  · simp only [isWsC, decide_eq_false_iff_not] at h ⊢
    omega
  · exact h

theorem toLowerCode_not_ws (c : Nat) (h : isWsC c = false) :
    isWsC (toLowerCode c) = false := by
  unfold toLowerCode
  split_ifs with h1
  · simp only [isWsC, decide_eq_false_iff_not] at h ⊢
    omega
  · exact h

theorem toUpperCode_toUpperCode (c : Nat) :
    toUpperCode (toUpperCode c) = toUpperCode c := by
  unfold toUpperCode
  split_ifs <;> omega

theorem toLowerCode_toLowerCode (c : Nat) :
    toLowerCode (toLowerCode c) = toLowerCode c := by
  unfold toLowerCode
  split_ifs <;> omega

/-! ### Idempotence: predicates on normalized strings -/

/-- Every code point is non-whitespace. -/
def allNonWs (l : List Nat) : Bool := l.all fun c => !isWsC c

/-- Every whitespace code point is the plain space 32. -/
def wsOnly32 (l : List Nat) : Bool := l.all fun c => !isWsC c || c == 32

/-- No two adjacent spaces. -/
def noDbl32 : List Nat → Bool
  | [] => true
  | c :: cs => (!(c == 32) || !(cs.head? == some 32)) && noDbl32 cs

/-- Every word is non-empty. -/
def wordsNonempty (W : List (List Nat)) : Bool := W.all fun w => !w.isEmpty

theorem noDbl32_cons_iff (c : Nat) (cs : List Nat) :
    noDbl32 (c :: cs) = true ↔
      ((c = 32 → cs.head? ≠ some 32) ∧ noDbl32 cs = true) := by
  simp only [noDbl32, Bool.and_eq_true, Bool.or_eq_true, Bool.not_eq_true', beq_eq_false_iff_ne,
    ne_eq]
  constructor
  · rintro ⟨h1 | h1, h2⟩
    · exact ⟨fun hc => absurd hc h1, h2⟩
    · exact ⟨fun _ => h1, h2⟩
  · rintro ⟨h1, h2⟩
    by_cases hc : c = 32
    · exact ⟨Or.inr (h1 hc), h2⟩
    · exact ⟨Or.inl hc, h2⟩

theorem capWord_capWord (w : List Nat) : capWord (capWord w) = capWord w := by
  cases w with
  | nil => rfl
  | cons c cs =>
    simp only [capWord, List.map_map]
    rw [toUpperCode_toUpperCode]
    congr 1
    exact List.map_congr_left fun a _ => toLowerCode_toLowerCode a

theorem capWord_ne_nil (w : List Nat) (h : w ≠ []) : capWord w ≠ [] := by
  cases w with
  | nil => exact absurd rfl h
  | cons c cs => simp [capWord]

theorem allNonWs_capWord (w : List Nat) (h : allNonWs w = true) :
    allNonWs (capWord w) = true := by
  cases w with
  | nil => rfl
  | cons c cs =>
    simp only [allNonWs, capWord, List.all_cons, List.all_map, Bool.and_eq_true,
      Bool.not_eq_true'] at h ⊢
    refine ⟨toUpperCode_not_ws c h.1, ?_⟩
    rw [List.all_eq_true] at h ⊢
    intro x hx
    simp only [Function.comp_apply, Bool.not_eq_true']
    exact toLowerCode_not_ws x (by simpa using h.2 x hx)

theorem not_mem_32_of_allNonWs (w : List Nat) (h : allNonWs w = true) : 32 ∉ w := by
  intro hm
  rw [allNonWs, List.all_eq_true] at h
  have := h 32 hm
  simp only [Bool.not_eq_true'] at this
  exact absurd isWsC_32 (by rw [this]; simp)

/-! ### Idempotence: properties of `collapseWs` -/

theorem wsOnly32_collapseWs (l : List Nat) : wsOnly32 (collapseWs l) = true := by
  induction l with
  | nil => rfl
  | cons c cs ih =>
    simp only [collapseWs]
    split_ifs with h1 h2
    · exact ih
    · simp only [wsOnly32, List.all_cons, Bool.and_eq_true]
      exact ⟨by decide, ih⟩
    · simp only [wsOnly32, List.all_cons, Bool.and_eq_true]
      refine ⟨?_, ih⟩
      simp only [Bool.or_eq_true, Bool.not_eq_true']
      exact Or.inl (by simpa using h1)

theorem noDbl32_collapseWs (l : List Nat) : noDbl32 (collapseWs l) = true := by
  induction l with
  | nil => rfl
  | cons c cs ih =>
    simp only [collapseWs]
    split_ifs with h1 h2
    · exact ih
    · rw [noDbl32_cons_iff]
      refine ⟨fun _ => ?_, ih⟩
      intro hc
      exact h2 (by simp [hc])
    · rw [noDbl32_cons_iff]
      refine ⟨fun hc => absurd hc (ne_32_of_not_ws (by simpa using h1)), ih⟩

theorem collapseWs_append_nonWs (w l : List Nat) (h : allNonWs w = true) :
    collapseWs (w ++ l) = w ++ collapseWs l := by
  induction w with
  | nil => rfl
  | cons c cs ih =>
    simp only [allNonWs, List.all_cons, Bool.and_eq_true, Bool.not_eq_true'] at h
    simp only [List.cons_append, collapseWs]
    rw [if_neg (by simp [h.1])]
    congr 1
    exact ih (by simp [allNonWs, h.2])

theorem collapseWs_of_allNonWs (w : List Nat) (h : allNonWs w = true) :
    collapseWs w = w := by
  simpa [collapseWs] using collapseWs_append_nonWs w [] h

/-! ### Idempotence: properties of `trimStart` and `trimEnd` -/

theorem mem_trimStart (l : List Nat) (x : Nat) (h : x ∈ trimStart l) : x ∈ l :=
  (List.dropWhile_sublist _).subset h

theorem mem_trimEnd (l : List Nat) (x : Nat) (h : x ∈ trimEnd l) : x ∈ l := by
  induction l with
  | nil => simp [trimEnd] at h
  | cons c cs ih =>
    simp only [trimEnd] at h
    rcases he : trimEnd cs with _ | ⟨r, rs⟩
    · rw [he] at h
      split_ifs at h with hc
      · simp at h
      · simp only [List.mem_singleton] at h
        exact h ▸ List.mem_cons_self c cs
    · rw [he] at h
      rcases List.mem_cons.mp h with rfl | h2
      · exact List.mem_cons_self _ _
      · exact List.mem_cons_of_mem _ (ih (he ▸ h2))

theorem wsOnly32_of_subset (l m : List Nat) (hsub : ∀ x ∈ l, x ∈ m)
    (hm : wsOnly32 m = true) : wsOnly32 l = true := by
  rw [wsOnly32, List.all_eq_true] at hm ⊢
  exact fun x hx => hm x (hsub x hx)

theorem noDbl32_trimStart (l : List Nat) (h : noDbl32 l = true) :
    noDbl32 (trimStart l) = true := by
  induction l with
  | nil => exact h
  | cons c cs ih =>
    rw [trimStart, List.dropWhile_cons]
    split_ifs with hc
    · exact ih ((noDbl32_cons_iff c cs).mp h).2
    · exact h

theorem head?_trimEnd (l : List Nat) (h : trimEnd l ≠ []) :
    (trimEnd l).head? = l.head? := by
  cases l with
  | nil => rfl
  | cons c cs =>
    simp only [trimEnd]
    rcases he : trimEnd cs with _ | ⟨r, rs⟩
    · split_ifs with hc
      · rw [trimEnd, he] at h
        simp [hc] at h
      · rfl
    · rfl

theorem noDbl32_trimEnd (l : List Nat) (h : noDbl32 l = true) :
    noDbl32 (trimEnd l) = true := by
  induction l with
  | nil => exact h
  | cons c cs ih =>
    obtain ⟨h1, h2⟩ := (noDbl32_cons_iff c cs).mp h
    simp only [trimEnd]
    rcases he : trimEnd cs with _ | ⟨r, rs⟩
    · split_ifs with hc
      · rfl
      · show noDbl32 [c] = true
        simp [noDbl32]
    · rw [noDbl32_cons_iff]
      refine ⟨?_, he ▸ ih h2⟩
      intro hc32 hhead
      have hne : trimEnd cs ≠ [] := by rw [he]; exact List.cons_ne_nil _ _
      rw [← he, head?_trimEnd cs hne] at hhead
      exact h1 hc32 hhead

theorem head?_trimStart_not_ws (l : List Nat) (c : Nat)
    (h : (trimStart l).head? = some c) : isWsC c = false := by
  induction l with
  | nil => simp [trimStart] at h
  | cons a as ih =>
    rw [trimStart, List.dropWhile_cons] at h
    split_ifs at h with ha
    · exact ih (by rwa [trimStart])
    · simp only [List.head?_cons, Option.some.injEq] at h
      rw [← h]
      simpa using ha

theorem getLast?_trimEnd_not_ws (l : List Nat) (c : Nat)
    (h : (trimEnd l).getLast? = some c) : isWsC c = false := by
  induction l with
  | nil => simp [trimEnd] at h
  | cons a as ih =>
    simp only [trimEnd] at h
    rcases he : trimEnd as with _ | ⟨r, rs⟩
    · rw [he] at h
      split_ifs at h with ha
      · simp at h
      · simp only [List.getLast?_singleton, Option.some.injEq] at h
        rw [← h]
        simpa using ha
    · rw [he] at h
      rw [List.getLast?_cons_cons] at h
      exact ih (he ▸ h)

theorem trimStart_of_head_not_ws (l : List Nat)
    (h : ∀ c, l.head? = some c → isWsC c = false) : trimStart l = l := by
  cases l with
  | nil => rfl
  | cons a as =>
    rw [trimStart, List.dropWhile_cons, if_neg]
    simp [h a rfl]

theorem trimEnd_of_getLast_not_ws (l : List Nat)
    (h : ∀ c, l.getLast? = some c → isWsC c = false) : trimEnd l = l := by
  induction l with
  | nil => rfl
  | cons a as ih =>
    cases as with
    | nil =>
      simp only [trimEnd]
      rw [if_neg]
      simp [h a rfl]
    | cons b bs =>
      have ih2 : trimEnd (b :: bs) = b :: bs :=
        ih fun c hc => h c (by rw [List.getLast?_cons_cons]; exact hc)
      rw [trimEnd, ih2]

/-! ### Idempotence: properties of `splitOnC` -/

theorem splitOnC_ne_nil (sep : Nat) (l : List Nat) : splitOnC sep l ≠ [] := by
  induction l with
  | nil => simp [splitOnC]
  | cons c cs ih =>
    simp only [splitOnC]
    split_ifs with h
    · simp
    · rcases hs : splitOnC sep cs with _ | ⟨t, ts⟩
      · simp
      · simp

theorem splitOnC_words_nonWs (l : List Nat) (h : wsOnly32 l = true) :
    ∀ w ∈ splitOnC 32 l, allNonWs w = true := by
  induction l with
  | nil =>
    intro w hw
    simp only [splitOnC, List.mem_singleton] at hw
    subst hw
    rfl
  | cons c cs ih =>
    intro w hw
    rw [wsOnly32, List.all_cons, Bool.and_eq_true] at h
    have hcs : wsOnly32 cs = true := h.2
    simp only [splitOnC] at hw
    split_ifs at hw with hc
    · rcases List.mem_cons.mp hw with rfl | hw2
      · rfl
      · exact ih hcs w hw2
    · rcases hs : splitOnC 32 cs with _ | ⟨t, ts⟩
      · exact absurd hs (splitOnC_ne_nil 32 cs)
      · rw [hs] at hw
        have hcns : isWsC c = false := by
          rcases (Bool.or_eq_true _ _).mp h.1 with h1 | h1
          · simpa using h1
          · exact absurd (by simpa using h1) (by simpa using hc)
        rcases List.mem_cons.mp hw with rfl | hw2
        · have ht : allNonWs t = true := ih hcs t (by rw [hs]; exact List.mem_cons_self _ _)
          rw [allNonWs, List.all_cons, Bool.and_eq_true]
          exact ⟨by simp [hcns], by rwa [allNonWs] at ht⟩
        · exact ih hcs w (by rw [hs]; exact List.mem_cons_of_mem _ hw2)

theorem splitOnC_words_nonempty_aux (l : List Nat) :
    noDbl32 l = true → l.getLast? ≠ some 32 →
      ((l.head? = some 32 →
          ∃ ts, splitOnC 32 l = [] :: ts ∧ wordsNonempty ts = true) ∧
        (l ≠ [] → l.head? ≠ some 32 →
          wordsNonempty (splitOnC 32 l) = true)) := by
  induction l with
  | nil =>
    intro _ _
    exact ⟨by simp, fun h _ => absurd rfl h⟩
  | cons c cs ih =>
    intro hn hl
    obtain ⟨hn1, hn2⟩ := (noDbl32_cons_iff c cs).mp hn
    constructor
    · intro hc32
      have hc : c = 32 := by simpa using hc32
      refine ⟨splitOnC 32 cs, ?_, ?_⟩
      · simp [splitOnC, hc]
      · cases cs with
        | nil => exact absurd hl (by simp [hc])
        | cons d ds =>
          have hdne : (d :: ds).head? ≠ some 32 := hn1 hc
          have hl2 : (d :: ds).getLast? ≠ some 32 := by
            rwa [List.getLast?_cons_cons] at hl
          exact (ih hn2 hl2).2 (List.cons_ne_nil d ds) hdne
    · intro _ hc32
      have hc : ¬((c == 32) = true) := by simpa using hc32
      simp only [splitOnC]
      rw [if_neg hc]
      cases cs with
      | nil =>
        show wordsNonempty [[c]] = true
        simp [wordsNonempty]
      | cons d ds =>
        have hl2 : (d :: ds).getLast? ≠ some 32 := by
          rwa [List.getLast?_cons_cons] at hl
        rcases hs : splitOnC 32 (d :: ds) with _ | ⟨t, ts⟩
        · exact absurd hs (splitOnC_ne_nil 32 _)
        · by_cases hd : (d :: ds).head? = some 32
          · obtain ⟨ts2, hts2, hne2⟩ := (ih hn2 hl2).1 hd
            rw [hts2] at hs
            injection hs with hs1 hs2
            subst hs1
            subst hs2
            simp only [wordsNonempty, List.all_cons, Bool.and_eq_true]
            exact ⟨by simp, by rwa [wordsNonempty] at hne2⟩
          · have hall := (ih hn2 hl2).2 (List.cons_ne_nil d ds) hd
            rw [hs] at hall
            simp only [wordsNonempty, List.all_cons, Bool.and_eq_true] at hall ⊢
            exact ⟨by simp, hall.2⟩

theorem splitOnC_32_free (w : List Nat) (h : 32 ∉ w) : splitOnC 32 w = [w] := by
  induction w with
  | nil => rfl
  | cons c cs ih =>
    have hc : ¬((c == 32) = true) := by
      simp only [beq_iff_eq]
      exact fun e => h (e ▸ List.mem_cons_self c cs)
    simp only [splitOnC]
    rw [if_neg hc, ih fun hm => h (List.mem_cons_of_mem _ hm)]

theorem splitOnC_append_32 (w l : List Nat) (h : 32 ∉ w) :
    splitOnC 32 (w ++ 32 :: l) = w :: splitOnC 32 l := by
  induction w with
  | nil => simp [splitOnC]
  | cons c cs ih =>
    have hc : ¬((c == 32) = true) := by
      simp only [beq_iff_eq]
      exact fun e => h (e ▸ List.mem_cons_self c cs)
    simp only [List.cons_append, splitOnC, List.append_eq]
    rw [if_neg hc, ih fun hm => h (List.mem_cons_of_mem _ hm)]

theorem splitOnC_joinWith (W : List (List Nat)) (hW : ∀ w ∈ W, 32 ∉ w)
    (hne : W ≠ []) : splitOnC 32 (joinWith [32] W) = W := by
  induction W with
  | nil => exact absurd rfl hne
  | cons w ws ih =>
    cases ws with
    | nil => exact splitOnC_32_free w (hW w (List.mem_cons_self _ _))
    | cons v vs =>
      have hj : joinWith [32] (w :: v :: vs) = w ++ 32 :: joinWith [32] (v :: vs) := by
        simp [joinWith]
      rw [hj, splitOnC_append_32 w _ (hW w (List.mem_cons_self _ _)),
        ih (fun x hx => hW x (List.mem_cons_of_mem _ hx)) (List.cons_ne_nil _ _)]

/-! ### Idempotence: properties of `joinWith [32]` on good word lists -/

theorem joinWith_cons_cons (w v : List Nat) (vs : List (List Nat)) :
    joinWith [32] (w :: v :: vs) = w ++ 32 :: joinWith [32] (v :: vs) := by
  simp [joinWith]

theorem joinWith_cons_ne_nil (w : List Nat) (ws : List (List Nat)) (hw : w ≠ []) :
    joinWith [32] (w :: ws) ≠ [] := by
  cases ws with
  | nil => exact hw
  | cons v vs =>
    rw [joinWith_cons_cons]
    simp [hw]

theorem head?_joinWith (w : List Nat) (ws : List (List Nat)) (hw : w ≠ []) :
    (joinWith [32] (w :: ws)).head? = w.head? := by
  cases ws with
  | nil => rfl
  | cons v vs =>
    rw [joinWith_cons_cons]
    exact List.head?_append_of_ne_nil _ hw

theorem getLast?_joinWith_mem (W : List (List Nat)) (c : Nat)
    (hne : ∀ w ∈ W, w ≠ []) (h : (joinWith [32] W).getLast? = some c) :
    ∃ w ∈ W, c ∈ w := by
  induction W with
  | nil => simp [joinWith] at h
  | cons w ws ih =>
    cases ws with
    | nil =>
      exact ⟨w, List.mem_cons_self _ _, List.mem_of_mem_getLast? h⟩
    | cons v vs =>
      rw [joinWith_cons_cons] at h
      have hvne : joinWith [32] (v :: vs) ≠ [] :=
        joinWith_cons_ne_nil v vs (hne v (by simp))
      rw [List.getLast?_append_of_ne_nil _ (List.cons_ne_nil 32 _)] at h
      rcases hj : joinWith [32] (v :: vs) with _ | ⟨b, bs⟩
      · exact absurd hj hvne
      · rw [hj, List.getLast?_cons_cons] at h
        obtain ⟨u, hu, hcu⟩ :=
          ih (fun x hx => hne x (List.mem_cons_of_mem _ hx)) (by rw [hj]; exact h)
        exact ⟨u, List.mem_cons_of_mem _ hu, hcu⟩

theorem collapseWs_joinWith (W : List (List Nat))
    (hne : ∀ w ∈ W, w ≠ []) (hnw : ∀ w ∈ W, allNonWs w = true) :
    collapseWs (joinWith [32] W) = joinWith [32] W := by
  induction W with
  | nil => rfl
  | cons w ws ih =>
    cases ws with
    | nil => exact collapseWs_of_allNonWs w (hnw w (by simp))
    | cons v vs =>
      rw [joinWith_cons_cons,
        collapseWs_append_nonWs w _ (hnw w (by simp))]
      congr 1
      have hjoin : collapseWs (joinWith [32] (v :: vs)) = joinWith [32] (v :: vs) :=
        ih (fun x hx => hne x (List.mem_cons_of_mem _ hx))
          (fun x hx => hnw x (List.mem_cons_of_mem _ hx))
      have hv : v ≠ [] := hne v (by simp)
      have hheadv : ∃ d, (joinWith [32] (v :: vs)).head? = some d ∧ isWsC d = false := by
        rcases hvc : v with _ | ⟨d, ds⟩
        · exact absurd hvc hv
        · refine ⟨d, ?_, ?_⟩
          · rw [← hvc, head?_joinWith v vs hv, hvc]
            rfl
          · have := hnw v (by simp)
            rw [hvc, allNonWs, List.all_cons, Bool.and_eq_true] at this
            simpa using this.1
      obtain ⟨d, hd, hdnw⟩ := hheadv
      simp only [collapseWs, isWsC_32, if_true]
      rw [hjoin, if_neg]
      rw [hd]
      simp only [Option.some.injEq, beq_iff_eq]
      intro hc
      subst hc
      rw [isWsC_32] at hdnw
      simp at hdnw

theorem trimWs_joinWith (W : List (List Nat))
    (hne : ∀ w ∈ W, w ≠ []) (hnw : ∀ w ∈ W, allNonWs w = true) (h0 : W ≠ []) :
    trimWs (joinWith [32] W) = joinWith [32] W := by
  rcases hWc : W with _ | ⟨w, ws⟩
  · exact absurd hWc h0
  · rw [trimWs, trimStart_of_head_not_ws]
    · apply trimEnd_of_getLast_not_ws
      intro c hc
      obtain ⟨u, hu, hcu⟩ := getLast?_joinWith_mem _ c (hWc ▸ hne) hc
      have := hnw u (hWc ▸ hu)
      rw [allNonWs, List.all_eq_true] at this
      simpa using this c hcu
    · intro c hc
      rw [head?_joinWith w ws (hne w (by rw [hWc]; simp))] at hc
      have hcm : c ∈ w := by
        rcases w with _ | ⟨a, as⟩
        · simp at hc
        · simp only [List.head?_cons, Option.some.injEq] at hc
          rw [← hc]
          exact List.mem_cons_self _ _
      have := hnw w (by rw [hWc]; simp)
      rw [allNonWs, List.all_eq_true] at this
      simpa using this c hcm

/-- Idempotence of the transformation at the simple (per-code-point) case
mapping level, for every input; the full-case-mapping transform agrees with
this one on ASCII titles. -/
theorem optimizeTitle_idem (t : List Nat) :
    optimizeTitle (optimizeTitle t) = optimizeTitle t := by
  by_cases h0 : trimWs (collapseWs t) = []
  · have hout : optimizeTitle t = [] := by
      rw [optimizeTitle, h0]
      rfl
    rw [hout]
    rfl
  · have hws : wsOnly32 (trimWs (collapseWs t)) = true :=
      wsOnly32_of_subset _ _ (fun x hx => mem_trimStart _ x (mem_trimEnd _ x hx))
        (wsOnly32_collapseWs t)
    have hnd : noDbl32 (trimWs (collapseWs t)) = true :=
      noDbl32_trimEnd _ (noDbl32_trimStart _ (noDbl32_collapseWs t))
    have h0e : trimEnd (trimStart (collapseWs t)) ≠ [] := h0
    have hhead : (trimWs (collapseWs t)).head? ≠ some 32 := by
      intro hc
      rw [trimWs, head?_trimEnd _ h0e] at hc
      have h2 := head?_trimStart_not_ws (collapseWs t) 32 hc
      exact absurd isWsC_32 (by rw [h2]; simp)
    have hlast : (trimWs (collapseWs t)).getLast? ≠ some 32 := by
      intro hc
      rw [trimWs] at hc
      have h2 := getLast?_trimEnd_not_ws (trimStart (collapseWs t)) 32 hc
      exact absurd isWsC_32 (by rw [h2]; simp)
    have hSnw := splitOnC_words_nonWs (trimWs (collapseWs t)) hws
    have hSne : ∀ w ∈ splitOnC 32 (trimWs (collapseWs t)), w ≠ [] := by
      have hres := (splitOnC_words_nonempty_aux _ hnd hlast).2 h0 hhead
      rw [wordsNonempty, List.all_eq_true] at hres
      intro w hw hnil
      have := hres w hw
      rw [hnil] at this
      simp at this
    have hWne : ∀ w ∈ (splitOnC 32 (trimWs (collapseWs t))).map capWord, w ≠ [] := by
      intro w hw
      rw [List.mem_map] at hw
      obtain ⟨u, hu, rfl⟩ := hw
      exact capWord_ne_nil u (hSne u hu)
    have hWnw : ∀ w ∈ (splitOnC 32 (trimWs (collapseWs t))).map capWord,
        allNonWs w = true := by
      intro w hw
      rw [List.mem_map] at hw
      obtain ⟨u, hu, rfl⟩ := hw
      exact allNonWs_capWord u (hSnw u hu)
    have hW32 : ∀ w ∈ (splitOnC 32 (trimWs (collapseWs t))).map capWord, 32 ∉ w :=
      fun w hw => not_mem_32_of_allNonWs w (hWnw w hw)
    have hW0 : (splitOnC 32 (trimWs (collapseWs t))).map capWord ≠ [] := by
      intro hc
      rw [List.map_eq_nil_iff] at hc
      exact splitOnC_ne_nil 32 _ hc
    show optimizeTitle
        (joinWith [32] ((splitOnC 32 (trimWs (collapseWs t))).map capWord)) =
      optimizeTitle t
    rw [optimizeTitle, collapseWs_joinWith _ hWne hWnw,
      trimWs_joinWith _ hWne hWnw hW0, splitOnC_joinWith _ hW32 hW0, List.map_map]
    congr 1
    exact List.map_congr_left fun a _ => capWord_capWord a

/-! ### Full case mappings versus the simple ones on ASCII input -/

theorem lowerChars_eq (c : Nat) : lowerChars c = [toLowerCode c] := by
  unfold lowerChars toLowerCode
  split_ifs <;> rfl

theorem toLowerFull_eq_map (l : List Nat) : toLowerFull l = l.map toLowerCode := by
  induction l with
  | nil => rfl
  | cons c cs ih => simp [toLowerFull, lowerChars_eq, ih]

theorem upperChars_eq_of_ascii (c : Nat) (h : c < 128) :
    upperChars c = [toUpperCode c] := by
  unfold upperChars toUpperCode
  split_ifs with h1 h2
  · rfl
  · exact absurd h (by omega)
  · rfl

theorem capWordFull_eq_capWord (w : List Nat) (h : ∀ c ∈ w, c < 128) :
    capWordFull w = capWord w := by
  cases w with
  | nil => rfl
  | cons c cs =>
    simp [capWordFull, capWord, toUpperFull, toLowerFull_eq_map,
      upperChars_eq_of_ascii c (h c (List.mem_cons_self c cs))]

theorem mem_collapseWs (l : List Nat) (x : Nat) (h : x ∈ collapseWs l) :
    x = 32 ∨ x ∈ l := by
  induction l with
  | nil => simp [collapseWs] at h
  | cons c cs ih =>
    simp only [collapseWs] at h
    split_ifs at h with h1 h2
    · rcases ih h with h3 | h3
      · exact Or.inl h3
      · exact Or.inr (List.mem_cons_of_mem _ h3)
    · rcases List.mem_cons.mp h with rfl | h3
      · exact Or.inl rfl
      · rcases ih h3 with h4 | h4
        · exact Or.inl h4
        · exact Or.inr (List.mem_cons_of_mem _ h4)
    · rcases List.mem_cons.mp h with rfl | h3
      · exact Or.inr (List.mem_cons_self _ _)
      · rcases ih h3 with h4 | h4
        · exact Or.inl h4
        · exact Or.inr (List.mem_cons_of_mem _ h4)

theorem mem_splitOnC_words (sep : Nat) (l : List Nat) :
    ∀ w ∈ splitOnC sep l, ∀ x ∈ w, x ∈ l := by
  induction l with
  | nil =>
    intro w hw x hx
    simp only [splitOnC, List.mem_singleton] at hw
    subst hw
    simp at hx
  | cons c cs ih =>
    intro w hw x hx
    simp only [splitOnC] at hw
    split_ifs at hw with h1
    · rcases List.mem_cons.mp hw with rfl | hw2
      · simp at hx
      · exact List.mem_cons_of_mem _ (ih w hw2 x hx)
    · rcases hs : splitOnC sep cs with _ | ⟨t, ts⟩
      · exact absurd hs (splitOnC_ne_nil sep cs)
      · rw [hs] at hw
        rcases List.mem_cons.mp hw with rfl | hw2
        · rcases List.mem_cons.mp hx with rfl | hx2
          · exact List.mem_cons_self _ _
          · exact List.mem_cons_of_mem _
              (ih t (by rw [hs]; exact List.mem_cons_self _ _) x hx2)
        · exact List.mem_cons_of_mem _
            (ih w (by rw [hs]; exact List.mem_cons_of_mem _ hw2) x hx)

theorem mem_joinWith32 (W : List (List Nat)) (x : Nat)
    (h : x ∈ joinWith [32] W) : x = 32 ∨ ∃ w ∈ W, x ∈ w := by
  induction W with
  | nil => simp [joinWith] at h
  | cons w ws ih =>
    cases ws with
    | nil => exact Or.inr ⟨w, List.mem_cons_self _ _, h⟩
    | cons v vs =>
      rw [joinWith_cons_cons] at h
      rcases List.mem_append.mp h with h1 | h1
      · exact Or.inr ⟨w, List.mem_cons_self _ _, h1⟩
      · rcases List.mem_cons.mp h1 with rfl | h2
        · exact Or.inl rfl
        · rcases ih h2 with h3 | ⟨u, hu, hxu⟩
          · exact Or.inl h3
          · exact Or.inr ⟨u, List.mem_cons_of_mem _ hu, hxu⟩

theorem toUpperCode_lt_128 (c : Nat) (h : c < 128) : toUpperCode c < 128 := by
  unfold toUpperCode
  split_ifs <;> omega

theorem toLowerCode_lt_128 (c : Nat) (h : c < 128) : toLowerCode c < 128 := by
  unfold toLowerCode
  split_ifs <;> omega

theorem title_word_char_ascii (t : List Nat) (h : ∀ c ∈ t, c < 128)
    (w : List Nat) (hw : w ∈ splitOnC 32 (trimWs (collapseWs t))) :
    ∀ c ∈ w, c < 128 := by
  intro c hc
  have h1 : c ∈ collapseWs t :=
    mem_trimStart _ c (mem_trimEnd _ c
      (mem_splitOnC_words 32 (trimWs (collapseWs t)) w hw c hc))
  rcases mem_collapseWs _ c h1 with rfl | h3
  · omega
  · exact h c h3

theorem optimizeTitleFull_eq_optimizeTitle (t : List Nat)
    (h : ∀ c ∈ t, c < 128) : optimizeTitleFull t = optimizeTitle t := by
  rw [optimizeTitleFull, optimizeTitle]
  congr 1
  apply List.map_congr_left
  intro w hw
  exact capWordFull_eq_capWord w (title_word_char_ascii t h w hw)

theorem optimizeTitle_ascii (t : List Nat) (h : ∀ c ∈ t, c < 128) :
    ∀ c ∈ optimizeTitle t, c < 128 := by
  intro c hc
  rw [optimizeTitle] at hc
  rcases mem_joinWith32 _ c hc with rfl | ⟨w, hw, hcw⟩
  · omega
  · rw [List.mem_map] at hw
    obtain ⟨u, hu, rfl⟩ := hw
    have hu128 := title_word_char_ascii t h u hu
    cases u with
    | nil => simp [capWord] at hcw
    | cons a as =>
      simp only [capWord, List.mem_cons, List.mem_map] at hcw
      rcases hcw with rfl | ⟨b, hb, rfl⟩
      · exact toUpperCode_lt_128 a (hu128 a (List.mem_cons_self _ _))
      · exact toLowerCode_lt_128 b (hu128 b (List.mem_cons_of_mem _ hb))

/-- C8 counterexample: JavaScript case mapping is the Unicode full mapping,
under which `ß` (223) uppercases to the two code points `SS`, so title
optimization is not idempotent for every input title: `"ßeta"` maps to
`"SSeta"`, which maps again to `"Sseta"`. -/
theorem title_case_not_idempotent :
    optimizeTitleFull (strCodes "ßeta") = strCodes "SSeta" ∧
    optimizeTitleFull (strCodes "SSeta") = strCodes "Sseta" ∧
    optimizeTitleFull (optimizeTitleFull (strCodes "ßeta")) ≠
      optimizeTitleFull (strCodes "ßeta") :=
  ⟨by decide, by decide, by decide⟩

/-- C8 amended: title optimization is idempotent on every ASCII title (all
code points below 128) — applying the transformation twice yields the same
string as applying it once — and on such titles the full-case-mapping
transform coincides with the per-code-point one. Idempotence does not
extend to every input title: a code point with a full Unicode case mapping,
such as `ß`, uppercases to two code points and breaks it. -/
theorem optimize_title_idempotent_ascii (t : List Nat) (h : ∀ c ∈ t, c < 128) :
    optimizeTitleFull (optimizeTitleFull t) = optimizeTitleFull t ∧
    optimizeTitleFull t = optimizeTitle t := by
  have h1 : optimizeTitleFull t = optimizeTitle t :=
    optimizeTitleFull_eq_optimizeTitle t h
  refine ⟨?_, h1⟩
  rw [h1, optimizeTitleFull_eq_optimizeTitle _ (optimizeTitle_ascii t h)]
  exact optimizeTitle_idem t

theorem optimize_title_idempotent_ascii_witness :
    optimizeTitleFull (optimizeTitleFull (strCodes "  wireLESS   mouse ")) =
      optimizeTitleFull (strCodes "  wireLESS   mouse ") :=
  (optimize_title_idempotent_ascii (strCodes "  wireLESS   mouse ") (by decide)).1

end TechHive
